import Mathlib

/-!
Verification of the DCASE 2019 Task 1 data feeder
(`utils/data_generator.py`, class `DataGenerator`).

The feeder is embedded shallowly:
* the in-memory feature table loaded by `load_hdf5` is the structure
  `DataDict` (optional columns become `Option` fields; accessing a missing
  dictionary key is an `Except.error`);
* index resolution (`get_audio_indexes`), source filtering
  (`get_source_indexes`), batch construction (the body of the `while`
  loops), the training stream (`generate_train`) and the validation stream
  (`generate_validate`) are translated function by function;
* the numpy RNG (`random_state.shuffle`) is abstracted as a parameter
  `sh : ℕ → List ℕ → List ℕ` (the list produced by the k-th shuffle call),
  used under the hypothesis that every `sh r l` is a permutation of `l`;
* numeric arrays are lists of rationals, so normalization is exact.
-/

set_option autoImplicit false

namespace DataGenerator

/-- Normalization statistics (`scalar` argument of the constructor):
a mean vector and a std vector, both of length D. -/
structure Scalar where
  mean : List ℚ
  std : List ℚ
  deriving DecidableEq, Repr

/-- The in-memory table built by `DataGenerator.load_hdf5`: the required
columns `audio_name` and `feature`, and the optional columns `target`
(present iff the hdf5 file has `scene_label`) and `source_label`. -/
structure DataDict where
  audio_name : List String
  feature : List (List ℚ)
  target : Option (List ℕ)
  source_label : Option (List String)
  deriving DecidableEq, Repr

/-- One yielded `batch_data_dict`: names, normalized features, one-hot
targets. -/
structure Batch where
  audio_name : List String
  feature : List (List ℚ)
  target : List (List ℚ)
  deriving DecidableEq, Repr

/-- Modelled from the spec: `scale` lives in `utilities.py`, which is not
under `src/`.  Spec 4.4: given a batch feature matrix, mean vector and std
vector of matching last dimension D, return `(x - mean) / std`,
element-wise broadcast over the leading dimension. -/
def scale (x : List (List ℚ)) (mean std : List ℚ) : List (List ℚ) :=
  x.map fun row => (row.zip (mean.zip std)).map fun p => (p.1 - p.2.1) / p.2.2

/-- The spec's round-trip expression `normalize(x, mean, std) * std + mean`,
element-wise broadcast over the leading dimension. -/
def unscale (y : List (List ℚ)) (mean std : List ℚ) : List (List ℚ) :=
  y.map fun row => (row.zip (mean.zip std)).map fun p => p.1 * p.2.2 + p.2.1

/-- Embedding of `DataGenerator.transform`: scale by the stored mean and std. -/
def transform (sc : Scalar) (x : List (List ℚ)) : List (List ℚ) :=
  scale x sc.mean sc.std

/-- Modelled from the spec: `sparse_to_categorical` lives in `utilities.py`,
which is not under `src/`.  Spec 4.2/glossary: convert sparse target
integers to one-hot vectors of width `classes_num`, value 1.0 at the class
index and 0 elsewhere. -/
def sparse_to_categorical (xs : List ℕ) (classes_num : ℕ) : List (List ℚ) :=
  xs.map fun k => (List.range classes_num).map fun j => if j = k then 1 else 0

/-- Embedding of `DataGenerator.get_audio_indexes`: for every metadata name, look up the
first row of `data_dict['audio_name']` equal to it (`np.argwhere(...)[0,0]`)
and skip names with no match (`len(loct) > 0`). -/
def get_audio_indexes (meta : List String) (names : List String) : List ℕ :=
  meta.filterMap fun name => names.findIdx? (· == name)

/-- Embedding of numpy fancy indexing `arr[batch_audio_indexes]`: gather the rows at the
given positions, raising `IndexError` when a position is out of range. -/
def gather {α : Type} (l : List α) : List ℕ → Except String (List α)
  | [] => Except.ok []
  | i :: is =>
    match l[i]? with
    | none => Except.error "IndexError"
    | some x => do
      let rest ← gather l is
      Except.ok (x :: rest)

/-- The batch-building block shared by `generate_train` (lines 117-128) and
`generate_validate` (lines 179-190): gather `audio_name`, gather and
`transform` the features, read `data_dict['target']` (a `KeyError` when the
store had no `scene_label` column), gather it and one-hot encode. -/
def makeBatch (dd : DataDict) (sc : Scalar) (classes_num : ℕ)
    (batch_audio_indexes : List ℕ) : Except String Batch := do
  let names ← gather dd.audio_name batch_audio_indexes
  let feats ← gather dd.feature batch_audio_indexes
  let tgtCol ← match dd.target with
    | none => Except.error "KeyError: target"
    | some t => Except.ok t
  let sparse_target ← gather tgtCol batch_audio_indexes
  Except.ok
    { audio_name := names
      feature := transform sc feats
      target := sparse_to_categorical sparse_target classes_num }

/-- The mutable state of the `generate_train` loop: the shuffled copy of
`train_audio_indexes`, the `pointer`, and how many times
`random_state.shuffle` has been called so far. -/
structure TrainState where
  indexes : List ℕ
  pointer : ℕ
  rng : ℕ
  deriving DecidableEq, Repr

/-- One iteration of the `while True` loop of `generate_train`: if the
pointer has reached the end, reset it to 0 and reshuffle; slice
`batch_size` indices and advance the pointer.  Returns the yielded slice
and the next state. -/
def trainStep (sh : ℕ → List ℕ → List ℕ) (batch_size : ℕ) (s : TrainState) :
    List ℕ × TrainState :=
  if s.indexes.length ≤ s.pointer then
    let l := sh s.rng s.indexes
    (l.take batch_size, ⟨l, batch_size, s.rng + 1⟩)
  else
    ((s.indexes.drop s.pointer).take batch_size,
     ⟨s.indexes, s.pointer + batch_size, s.rng⟩)

/-- The state of `generate_train` just after line 105: the index list has
been shuffled once (`sh 0`) and the pointer is 0. -/
def initTrain (sh : ℕ → List ℕ → List ℕ) (train_audio_indexes : List ℕ) :
    TrainState :=
  ⟨sh 0 train_audio_indexes, 0, 1⟩

/-- Run `n` iterations of the `generate_train` loop, collecting the yielded
index slices in order. -/
def trainRun (sh : ℕ → List ℕ → List ℕ) (batch_size : ℕ) :
    ℕ → TrainState → List (List ℕ) × TrainState
  | 0, s => ([], s)
  | n + 1, s =>
    let p := trainStep sh batch_size s
    let q := trainRun sh batch_size n p.2
    (p.1 :: q.1, q.2)

/-- The row indices underlying the `n`-th batch yielded by
`generate_train` (counting from 0). -/
def nthTrainIndexes (sh : ℕ → List ℕ → List ℕ) (batch_size : ℕ)
    (train_audio_indexes : List ℕ) (n : ℕ) : List ℕ :=
  (trainRun sh batch_size (n + 1) (initTrain sh train_audio_indexes)).1.getD n []

/-- The batch at position `n` yielded by `generate_train`, with the batch-building
block applied to the sliced indices. -/
def nthTrainBatch (sh : ℕ → List ℕ → List ℕ) (dd : DataDict) (sc : Scalar)
    (classes_num batch_size : ℕ) (train_audio_indexes : List ℕ) (n : ℕ) :
    Except String Batch :=
  makeBatch dd sc classes_num (nthTrainIndexes sh batch_size train_audio_indexes n)

/-- Number of batches per epoch of `generate_train`:
`⌈length / batch_size⌉`. -/
def epochLen (idxs : List ℕ) (batch_size : ℕ) : ℕ :=
  (idxs.length + batch_size - 1) / batch_size

/-- The shuffled index list used during epoch `e` of `generate_train`:
epoch 0 uses the initial shuffle, and each wraparound reshuffles the
previous epoch's list in place. -/
def epochList (sh : ℕ → List ℕ → List ℕ) (train_audio_indexes : List ℕ) :
    ℕ → List ℕ
  | 0 => sh 0 train_audio_indexes
  | e + 1 => sh (e + 1) (epochList sh train_audio_indexes e)

/-- Embedding of `DataGenerator.get_source_indexes`: keep the indexes whose
`data_dict['source_label'][index]` is in `sources` (an `IndexError` when an
index is out of range). -/
def get_source_indexes (indexes : List ℕ) (source_label : List String)
    (sources : List String) : Except String (List ℕ) :=
  match indexes with
  | [] => Except.ok []
  | i :: is =>
    match source_label[i]? with
    | none => Except.error "IndexError"
    | some s => do
      let rest ← get_source_indexes is source_label sources
      if sources.contains s then Except.ok (i :: rest) else Except.ok rest

/-- Embedding of the `while True` loop of `generate_validate`: break when `iteration`
reaches `max_iteration` or the pointer reaches the end; otherwise slice
`batch_size` indices, advance, and yield.  `it` is the current value of
`iteration`; the remaining list stands for the portion of `audio_indexes`
from the pointer on (so `batch_size ≥ 1` is assumed by the translation of
the pointer advance). -/
def validateLoop (batch_size : ℕ) (max_iteration : Option ℕ) :
    ℕ → List ℕ → List (List ℕ)
  | _, [] => []
  | it, x :: xs =>
    if max_iteration = some it then []
    else (x :: xs).take batch_size ::
      validateLoop batch_size max_iteration (it + 1) (xs.drop (batch_size - 1))
  termination_by _ l => l.length
  decreasing_by
    simp only [List.length_cons, List.length_drop]
    omega

/-- The index slices underlying the batches yielded by
`generate_validate`: select the index set by `data_type` (an invalid value
raises before any batch), filter by source in `validate` mode (reading
`data_dict['source_label']`, a `KeyError` when absent), then run the loop. -/
def generate_validate_chunks (dd : DataDict) (batch_size : ℕ)
    (train_audio_indexes validate_audio_indexes : List ℕ)
    (data_type : String) (sources : List String)
    (max_iteration : Option ℕ) : Except String (List (List ℕ)) :=
  if data_type = "train" then
    Except.ok (validateLoop batch_size max_iteration 0 train_audio_indexes)
  else if data_type = "validate" then
    match dd.source_label with
    | none => Except.error "KeyError: source_label"
    | some src => do
      let flt ← get_source_indexes validate_audio_indexes src sources
      Except.ok (validateLoop batch_size max_iteration 0 flt)
  else Except.error "Incorrect argument!"

/-- Embedding of `DataGenerator.generate_validate`: the yielded batches, each index
slice put through the batch-building block; the first failing batch aborts
the stream with its error. -/
def generate_validate (dd : DataDict) (sc : Scalar)
    (classes_num batch_size : ℕ)
    (train_audio_indexes validate_audio_indexes : List ℕ)
    (data_type : String) (sources : List String)
    (max_iteration : Option ℕ) : Except String (List Batch) := do
  let chunks ← generate_validate_chunks dd batch_size train_audio_indexes
    validate_audio_indexes data_type sources max_iteration
  chunks.mapM (makeBatch dd sc classes_num)

end DataGenerator

namespace DataGenerator

theorem beq_eq_decide_eq_symm (a n : String) : (a == n) = decide (n = a) := by
  rcases eq_or_ne a n with h | h
  · subst h; simp
  · simp [beq_eq_false_iff_ne, h, Ne.symm h]

theorem findIdx?_isSome_eq_mem (names : List String) (n : String) :
    (names.findIdx? (· == n)).isSome = decide (n ∈ names) := by
  rw [List.findIdx?_isSome]
  induction names with
  | nil => simp
  | cons a l ih =>
    rw [List.any_cons, ih, beq_eq_decide_eq_symm]
    simp [List.mem_cons]

theorem get_audio_indexes_length_eq (meta names : List String) :
    (get_audio_indexes meta names).length
      = (meta.filter fun n => decide (n ∈ names)).length := by
  induction meta with
  | nil => rfl
  | cons a l ih =>
    have hmem : (names.findIdx? (· == a)).isSome = decide (a ∈ names) :=
      findIdx?_isSome_eq_mem names a
    unfold get_audio_indexes at ih ⊢
    rw [List.filterMap_cons, List.filter_cons]
    cases hfind : names.findIdx? (· == a) with
    | none =>
      rw [hfind] at hmem
      simp only [Option.isSome_none] at hmem
      rw [← hmem]
      simpa using ih
    | some i =>
      rw [hfind] at hmem
      simp only [Option.isSome_some] at hmem
      rw [← hmem]
      simpa using ih

/-- C5: the resolved index set is at most as long as the metadata, its
length is exactly the number of metadata names present in the feature
store's name column, and every recorded index is the first row whose name
matches the metadata entry (unmatched names are silently skipped). -/
theorem get_audio_indexes_matched_count (meta names : List String) :
    (get_audio_indexes meta names).length ≤ meta.length
    ∧ (get_audio_indexes meta names).length
        = (meta.filter fun n => decide (n ∈ names)).length
    ∧ ∀ i ∈ get_audio_indexes meta names, ∃ name ∈ meta,
        ∃ h : i < names.length, names.get ⟨i, h⟩ = name
          ∧ ∀ j (hj : j < i), names.get ⟨j, hj.trans h⟩ ≠ name := by
  refine ⟨?_, get_audio_indexes_length_eq meta names, ?_⟩
  · rw [get_audio_indexes_length_eq meta names]
    exact List.length_filter_le _ _
  · intro i hi
    rw [get_audio_indexes, List.mem_filterMap] at hi
    obtain ⟨name, hname, hfind⟩ := hi
    rw [List.findIdx?_eq_some_iff_getElem] at hfind
    obtain ⟨h, hp, hmin⟩ := hfind
    refine ⟨name, hname, h, ?_, ?_⟩
    · simpa [List.get_eq_getElem, beq_iff_eq] using hp
    · intro j hj
      have := hmin j hj
      simpa [List.get_eq_getElem, beq_iff_eq] using this

/-- C4: any `data_type` other than `"train"` or `"validate"` makes
`generate_validate` fail immediately with the invalid-argument error,
before any batch is produced. -/
theorem generate_validate_invalid_mode (dd : DataDict) (sc : Scalar)
    (classes_num batch_size : ℕ) (tidx vidx : List ℕ) (mode : String)
    (sources : List String) (maxIt : Option ℕ)
    (h1 : mode ≠ "train") (h2 : mode ≠ "validate") :
    generate_validate dd sc classes_num batch_size tidx vidx mode sources maxIt
        = Except.error "Incorrect argument!"
    ∧ generate_validate_chunks dd batch_size tidx vidx mode sources maxIt
        = Except.error "Incorrect argument!" := by
  have hc : generate_validate_chunks dd batch_size tidx vidx mode sources maxIt
      = Except.error "Incorrect argument!" := by
    unfold generate_validate_chunks
    rw [if_neg h1, if_neg h2]
  refine ⟨?_, hc⟩
  unfold generate_validate
  rw [hc]
  rfl

/-- Witness for C4 at the concrete mode `"evaluate"`. -/
theorem generate_validate_invalid_mode_witness :
    generate_validate ⟨[], [], none, none⟩ ⟨[], []⟩ 0 1 [] [] "evaluate" [] none
        = Except.error "Incorrect argument!"
    ∧ generate_validate_chunks ⟨[], [], none, none⟩ 1 [] [] "evaluate" [] none
        = Except.error "Incorrect argument!" :=
  generate_validate_invalid_mode ⟨[], [], none, none⟩ ⟨[], []⟩ 0 1 [] []
    "evaluate" [] none (by decide) (by decide)

theorem scale_row_round_trip (r m s : List ℚ)
    (hrm : r.length = m.length) (hms : m.length = s.length)
    (hs : ∀ v ∈ s, v ≠ 0) :
    ((((r.zip (m.zip s)).map fun p => (p.1 - p.2.1) / p.2.2).zip
        (m.zip s)).map fun p => p.1 * p.2.2 + p.2.1) = r := by
  induction r generalizing m s with
  | nil => simp
  | cons a r ih =>
    cases m with
    | nil => simp at hrm
    | cons b m =>
      cases s with
      | nil => simp at hms
      | cons c s =>
        simp only [List.zip_cons_cons, List.map_cons]
        have hc : c ≠ 0 := hs c (List.mem_cons_self c s)
        rw [div_mul_cancel₀ _ hc, sub_add_cancel]
        have hrm' : r.length = m.length := by
          simpa using hrm
        have hms' : m.length = s.length := by
          simpa using hms
        have hs' : ∀ v ∈ s, v ≠ 0 := fun v hv => hs v (List.mem_cons_of_mem c hv)
        rw [ih m s hrm' hms' hs']

/-- C8: the normalization helper `transform` computes `(x - mean) / std`
element-wise, and multiplying by `std` and adding `mean` back recovers `x`
exactly (the model is over ℚ, so the floating-point tolerance is 0),
whenever the shapes agree and every `std` entry is nonzero. -/
theorem transform_round_trip (sc : Scalar) (x : List (List ℚ))
    (hx : ∀ row ∈ x, row.length = sc.mean.length)
    (hms : sc.mean.length = sc.std.length)
    (hs : ∀ v ∈ sc.std, v ≠ 0) :
    unscale (transform sc x) sc.mean sc.std = x := by
  unfold transform scale unscale
  rw [List.map_map]
  have : ∀ row ∈ x,
      ((((row.zip (sc.mean.zip sc.std)).map fun p => (p.1 - p.2.1) / p.2.2).zip
        (sc.mean.zip sc.std)).map fun p => p.1 * p.2.2 + p.2.1) = row :=
    fun row hrow => scale_row_round_trip row sc.mean sc.std (hx row hrow) hms hs
  calc (x.map fun row =>
        (((row.zip (sc.mean.zip sc.std)).map fun p => (p.1 - p.2.1) / p.2.2).zip
          (sc.mean.zip sc.std)).map fun p => p.1 * p.2.2 + p.2.1)
      = x.map id := List.map_congr_left this
    _ = x := List.map_id x

/-- Witness for C8 at a concrete 2×2 batch. -/
theorem transform_round_trip_witness :
    unscale (transform ⟨[1, 2], [3, 4]⟩ [[5, 6], [7, 8]]) [1, 2] [3, 4]
      = [[5, 6], [7, 8]] :=
  transform_round_trip ⟨[1, 2], [3, 4]⟩ [[5, 6], [7, 8]]
    (by decide) (by decide) (by decide)

end DataGenerator

namespace DataGenerator

theorem gather_ok_of_lt {α : Type} (l : List α) (idxs : List ℕ)
    (h : ∀ i ∈ idxs, i < l.length) : ∃ v, gather l idxs = Except.ok v := by
  induction idxs with
  | nil => exact ⟨[], rfl⟩
  | cons i is ih =>
    obtain ⟨v, hv⟩ := ih fun j hj => h j (List.mem_cons_of_mem i hj)
    have hi : i < l.length := h i (List.mem_cons_self i is)
    have : l[i]? = some (l.get ⟨i, hi⟩) := by
      rw [List.getElem?_eq_getElem hi]
      rfl
    refine ⟨l.get ⟨i, hi⟩ :: v, ?_⟩
    unfold gather
    rw [this, hv]
    rfl

/-- C9: whenever a batch is successfully built, its `target` field is the
one-hot encoding of the gathered sparse targets over width `classes_num`
(each row has exactly `classes_num` entries), and on the spec's concrete
example `[2,0,1]` with 3 classes the encoding is
`[[0,0,1],[1,0,0],[0,1,0]]`. -/
theorem batch_target_one_hot (dd : DataDict) (sc : Scalar) (classes_num : ℕ)
    (bidx st tgt : List ℕ) (b : Batch)
    (ht : dd.target = some tgt)
    (hst : gather tgt bidx = Except.ok st)
    (hb : makeBatch dd sc classes_num bidx = Except.ok b) :
    b.target = sparse_to_categorical st classes_num
    ∧ (∀ row ∈ b.target, row.length = classes_num)
    ∧ sparse_to_categorical [2, 0, 1] 3
        = [[0, 0, 1], [1, 0, 0], [0, 1, 0]] := by
  have hbt : b.target = sparse_to_categorical st classes_num := by
    unfold makeBatch at hb
    rcases hA : gather dd.audio_name bidx with eA | names
    · rw [hA] at hb
      simp [Bind.bind, Except.bind] at hb
    · rw [hA] at hb
      rcases hF : gather dd.feature bidx with eF | feats
      · rw [hF] at hb
        simp [Bind.bind, Except.bind] at hb
      · rw [hF, ht] at hb
        simp only [Bind.bind, Except.bind] at hb
        rw [hst] at hb
        simp only [Except.ok.injEq] at hb
        rw [← hb]
  refine ⟨hbt, ?_, by decide⟩
  intro row hrow
  rw [hbt] at hrow
  unfold sparse_to_categorical at hrow
  rw [List.mem_map] at hrow
  obtain ⟨k, _, hk⟩ := hrow
  rw [← hk]
  simp

/-- Witness for C9 on a 3-row store with targets `[2,0,1]`. -/
theorem batch_target_one_hot_witness :
    (Batch.mk ["a", "b", "c"] (transform ⟨[0], [1]⟩ [[1], [2], [3]])
        (sparse_to_categorical [2, 0, 1] 3)).target
      = sparse_to_categorical [2, 0, 1] 3
    ∧ sparse_to_categorical [2, 0, 1] 3
        = [[0, 0, 1], [1, 0, 0], [0, 1, 0]] := by
  have h := batch_target_one_hot
    ⟨["a", "b", "c"], [[1], [2], [3]], some [2, 0, 1], none⟩
    ⟨[0], [1]⟩ 3 [0, 1, 2] [2, 0, 1] [2, 0, 1]
    (Batch.mk ["a", "b", "c"] (transform ⟨[0], [1]⟩ [[1], [2], [3]])
      (sparse_to_categorical [2, 0, 1] 3))
    rfl rfl (by rfl)
  exact ⟨h.1, h.2.2⟩

end DataGenerator

namespace DataGenerator

theorem ceil_div_zero (bs : ℕ) (hbs : 1 ≤ bs) : (0 + bs - 1) / bs = 0 :=
  Nat.div_eq_of_lt (by omega)

theorem ceil_div_sub (bs L : ℕ) (hbs : 1 ≤ bs) (hL : 1 ≤ L) :
    (L + bs - 1) / bs = ((L - bs) + bs - 1) / bs + 1 := by
  rcases le_or_lt L bs with h | h
  · have h0 : L - bs = 0 := by omega
    rw [h0]
    have h1 : (0 + bs - 1) / bs = 0 := ceil_div_zero bs hbs
    rw [h1]
    exact Nat.div_eq_of_lt_le (by omega) (by omega)
  · have h2 : L + bs - 1 = ((L - bs) + bs - 1) + bs := by omega
    rw [h2, Nat.add_div_right _ (by omega)]

theorem validateLoop_nil (bs : ℕ) (mi : Option ℕ) (it : ℕ) :
    validateLoop bs mi it [] = [] := by
  simp [validateLoop]

theorem validateLoop_cons (bs : ℕ) (mi : Option ℕ) (it x : ℕ) (xs : List ℕ) :
    validateLoop bs mi it (x :: xs)
      = if mi = some it then []
        else (x :: xs).take bs ::
          validateLoop bs mi (it + 1) (xs.drop (bs - 1)) := by
  rw [validateLoop]

theorem validateLoop_none_length_aux (bs : ℕ) (hbs : 1 ≤ bs) :
    ∀ (n : ℕ) (l : List ℕ) (it : ℕ), l.length ≤ n →
      (validateLoop bs none it l).length = (l.length + bs - 1) / bs := by
  intro n
  induction n with
  | zero =>
    intro l it h
    have : l = [] := List.length_eq_zero.mp (by omega)
    subst this
    rw [validateLoop_nil]
    simp only [List.length_nil]
    exact (ceil_div_zero bs hbs).symm
  | succ n ih =>
    intro l it h
    cases l with
    | nil =>
      rw [validateLoop_nil]
      simp only [List.length_nil]
      exact (ceil_div_zero bs hbs).symm
    | cons x xs =>
      simp only [List.length_cons] at h
      rw [validateLoop_cons]
      simp only [reduceCtorEq, if_false, List.length_cons]
      have hlen : (xs.drop (bs - 1)).length = (x :: xs).length - bs := by
        simp only [List.length_drop, List.length_cons]
        omega
      rw [ih (xs.drop (bs - 1)) (it + 1) (by simp only [List.length_drop]; omega)]
      rw [hlen]
      have := ceil_div_sub bs (x :: xs).length hbs (by simp)
      simp only [List.length_cons] at this ⊢
      omega

theorem validateLoop_some_length_aux (bs : ℕ) (hbs : 1 ≤ bs) :
    ∀ (n : ℕ) (l : List ℕ) (it m : ℕ), l.length ≤ n → it ≤ m →
      (validateLoop bs (some m) it l).length
        = min (m - it) ((l.length + bs - 1) / bs) := by
  intro n
  induction n with
  | zero =>
    intro l it m h _
    have : l = [] := List.length_eq_zero.mp (by omega)
    subst this
    rw [validateLoop_nil]
    simp only [List.length_nil]
    rw [ceil_div_zero bs hbs]
    simp
  | succ n ih =>
    intro l it m h him
    cases l with
    | nil =>
      rw [validateLoop_nil]
      simp only [List.length_nil]
      rw [ceil_div_zero bs hbs]
      simp
    | cons x xs =>
      rw [validateLoop_cons]
      rcases eq_or_ne it m with heq | hne
      · subst heq
        rw [if_pos rfl]
        simp only [List.length_nil]
        rw [Nat.sub_self, Nat.zero_min]
      · have : ¬ (some m = some it) := by
          simp only [Option.some.injEq]
          exact fun hc => hne hc.symm
        rw [if_neg this]
        simp only [List.length_cons]
        simp only [List.length_cons] at h
        have hdrop : (xs.drop (bs - 1)).length ≤ n := by
          simp only [List.length_drop]
          omega
        rw [ih (xs.drop (bs - 1)) (it + 1) m hdrop (by omega)]
        have hlen : (xs.drop (bs - 1)).length = (x :: xs).length - bs := by
          simp only [List.length_drop, List.length_cons]
          omega
        rw [hlen]
        have hsub := ceil_div_sub bs (x :: xs).length hbs (by simp)
        simp only [List.length_cons] at hsub ⊢
        omega

theorem validateLoop_none_flatten_aux (bs : ℕ) (hbs : 1 ≤ bs) :
    ∀ (n : ℕ) (l : List ℕ) (it : ℕ), l.length ≤ n →
      (validateLoop bs none it l).flatten = l := by
  intro n
  induction n with
  | zero =>
    intro l it h
    have : l = [] := List.length_eq_zero.mp (by omega)
    subst this
    rw [validateLoop_nil, List.flatten_nil]
  | succ n ih =>
    intro l it h
    cases l with
    | nil => rw [validateLoop_nil, List.flatten_nil]
    | cons x xs =>
      simp only [List.length_cons] at h
      rw [validateLoop_cons]
      simp only [reduceCtorEq, if_false, List.flatten_cons]
      rw [ih (xs.drop (bs - 1)) (it + 1) (by simp only [List.length_drop]; omega)]
      have htake : (x :: xs).take bs = x :: xs.take (bs - 1) := by
        cases bs with
        | zero => exact absurd hbs (by omega)
        | succ b => simp [List.take_succ_cons]
      rw [htake, List.cons_append, List.take_append_drop]

theorem get_source_indexes_eq_filter (idxs : List ℕ) (src : List String)
    (sources : List String) (h : ∀ i ∈ idxs, i < src.length) :
    get_source_indexes idxs src sources
      = Except.ok (idxs.filter fun i => sources.contains (src.getD i "")) := by
  induction idxs with
  | nil => rfl
  | cons i is ih =>
    have hi : i < src.length := h i (List.mem_cons_self i is)
    have hget : src[i]? = some src[i] := List.getElem?_eq_getElem hi
    have hgetD : src.getD i "" = src[i] := by
      rw [List.getD_eq_getElem?_getD, hget]
      rfl
    unfold get_source_indexes
    rw [hget, ih fun j hj => h j (List.mem_cons_of_mem i hj)]
    rw [List.filter_cons, hgetD]
    cases hmem : sources.contains src[i] with
    | false =>
      have hm : src[i] ∉ sources := by simpa using hmem
      simp [Bind.bind, Except.bind, hmem, hm]
    | true =>
      have hm : src[i] ∈ sources := by simpa using hmem
      simp [Bind.bind, Except.bind, hmem, hm]

theorem mapM_ok_length {α β : Type} (f : α → Except String β) :
    ∀ (l : List α) (ys : List β), l.mapM f = Except.ok ys →
      ys.length = l.length := by
  intro l
  induction l with
  | nil =>
    intro ys h
    simp only [List.mapM_nil, pure, Except.pure, Except.ok.injEq] at h
    rw [← h]
    rfl
  | cons a as ih =>
    intro ys h
    rw [List.mapM_cons] at h
    rcases hfa : f a with e | b
    · rw [hfa] at h
      simp [Bind.bind, Except.bind] at h
    · rw [hfa] at h
      simp only [Bind.bind, Except.bind] at h
      rcases hrest : as.mapM f with e2 | bs2
      · rw [hrest] at h
        simp [pure, Except.pure] at h
      · rw [hrest] at h
        simp only [pure, Except.pure, Except.ok.injEq] at h
        rw [← h, List.length_cons, ih bs2 hrest]
        exact (List.length_cons a as).symm

end DataGenerator

namespace DataGenerator

/-- C6: in mode `"validate"`, the stream's underlying index slices are the
loop over the order-preserving filter of the validation index set (rows
whose source label belongs to `sources`), and their concatenation in yield
order is exactly that filter — no shuffling or reordering occurs. -/
theorem generate_validate_source_filter (dd : DataDict) (bs : ℕ)
    (tidx vidx : List ℕ) (src sources : List String)
    (hsrc : dd.source_label = some src)
    (hin : ∀ i ∈ vidx, i < src.length) (hbs : 1 ≤ bs) :
    generate_validate_chunks dd bs tidx vidx "validate" sources none
      = Except.ok (validateLoop bs none 0
          (vidx.filter fun i => sources.contains (src.getD i "")))
    ∧ (validateLoop bs none 0
        (vidx.filter fun i => sources.contains (src.getD i ""))).flatten
      = vidx.filter fun i => sources.contains (src.getD i "") := by
  constructor
  · unfold generate_validate_chunks
    rw [if_neg (by decide), if_pos rfl, hsrc]
    simp only [get_source_indexes_eq_filter vidx src sources hin,
      Bind.bind, Except.bind]
  · exact validateLoop_none_flatten_aux bs hbs _ _ 0 le_rfl

/-- Witness for C6 on a 3-row validation set with two rows from source
`"a"`. -/
theorem generate_validate_source_filter_witness :
    generate_validate_chunks ⟨[], [], none, some ["a", "b", "a"]⟩ 1 []
        [0, 1, 2] "validate" ["a"] none
      = Except.ok (validateLoop 1 none 0
          ([0, 1, 2].filter fun i =>
            (["a"] : List String).contains
              ((["a", "b", "a"] : List String).getD i "")))
    ∧ (validateLoop 1 none 0
        ([0, 1, 2].filter fun i =>
          (["a"] : List String).contains
            ((["a", "b", "a"] : List String).getD i ""))).flatten
      = [0, 1, 2].filter fun i =>
          (["a"] : List String).contains
            ((["a", "b", "a"] : List String).getD i "") :=
  generate_validate_source_filter ⟨[], [], none, some ["a", "b", "a"]⟩ 1 []
    [0, 1, 2] ["a", "b", "a"] ["a"] rfl (by decide) (by decide)

/-- C3: the validation stream yields
`min max_iteration ⌈length / batch_size⌉` batches when `max_iteration` is
supplied and `⌈length / batch_size⌉` without it; in mode `"validate"` with
an empty source filter it yields zero batches; and the number of
successfully yielded batches equals the number of index slices. -/
theorem generate_validate_batch_count (dd : DataDict) (bs m : ℕ)
    (l tidx vidx : List ℕ) (src : List String)
    (hsrc : dd.source_label = some src)
    (hin : ∀ i ∈ vidx, i < src.length)
    (hbs : 1 ≤ bs) :
    (validateLoop bs (some m) 0 l).length = min m ((l.length + bs - 1) / bs)
    ∧ (validateLoop bs none 0 l).length = (l.length + bs - 1) / bs
    ∧ generate_validate_chunks dd bs tidx vidx "validate" [] none
        = Except.ok []
    ∧ ∀ (sc : Scalar) (cn : ℕ) (dt : String) (srcs : List String)
        (mi : Option ℕ) (cs : List (List ℕ)) (bl : List Batch),
        generate_validate_chunks dd bs tidx vidx dt srcs mi = Except.ok cs →
        generate_validate dd sc cn bs tidx vidx dt srcs mi = Except.ok bl →
        bl.length = cs.length := by
  refine ⟨?_, ?_, ?_, ?_⟩
  · have h := validateLoop_some_length_aux bs hbs l.length l 0 m le_rfl
      (Nat.zero_le m)
    simpa using h
  · exact validateLoop_none_length_aux bs hbs l.length l 0 le_rfl
  · unfold generate_validate_chunks
    rw [if_neg (by decide), if_pos rfl, hsrc]
    have hnil : (vidx.filter fun i =>
        ([] : List String).contains (src.getD i "")) = [] := by
      simp
    simp only [get_source_indexes_eq_filter vidx src [] hin, hnil,
      validateLoop_nil, Bind.bind, Except.bind]
  · intro sc cn dt srcs mi cs bl hcs hbl
    unfold generate_validate at hbl
    rw [hcs] at hbl
    simp only [Bind.bind, Except.bind] at hbl
    exact mapM_ok_length _ cs bl hbl

/-- Witness for C3: `max_iteration = 3` on a 10-element index set with
batch size 1 yields `min 3 10 = 3` batches; the empty source filter yields
zero batches. -/
theorem generate_validate_batch_count_witness :
    (validateLoop 1 (some 3) 0 [0, 1, 2, 3, 4, 5, 6, 7, 8, 9]).length
      = min 3 (([0, 1, 2, 3, 4, 5, 6, 7, 8, 9].length + 1 - 1) / 1)
    ∧ (validateLoop 1 none 0 [0, 1, 2, 3, 4, 5, 6, 7, 8, 9]).length
      = ([0, 1, 2, 3, 4, 5, 6, 7, 8, 9].length + 1 - 1) / 1
    ∧ generate_validate_chunks ⟨[], [], none, some ["a"]⟩ 1 [] [0]
        "validate" [] none = Except.ok []
    ∧ ∀ (sc : Scalar) (cn : ℕ) (dt : String) (srcs : List String)
        (mi : Option ℕ) (cs : List (List ℕ)) (bl : List Batch),
        generate_validate_chunks ⟨[], [], none, some ["a"]⟩ 1 [] [0] dt srcs mi
          = Except.ok cs →
        generate_validate ⟨[], [], none, some ["a"]⟩ sc cn 1 [] [0] dt srcs mi
          = Except.ok bl →
        bl.length = cs.length :=
  generate_validate_batch_count ⟨[], [], none, some ["a"]⟩ 1 3
    [0, 1, 2, 3, 4, 5, 6, 7, 8, 9] [] [0] ["a"] rfl (by decide) (by decide)

end DataGenerator

namespace DataGenerator

theorem makeBatch_ok_of_target (dd : DataDict) (sc : Scalar) (cn : ℕ)
    (bidx tgt : List ℕ) (ht : dd.target = some tgt)
    (hA : ∀ i ∈ bidx, i < dd.audio_name.length)
    (hF : ∀ i ∈ bidx, i < dd.feature.length)
    (hT : ∀ i ∈ bidx, i < tgt.length) :
    ∃ b, makeBatch dd sc cn bidx = Except.ok b := by
  obtain ⟨names, hn⟩ := gather_ok_of_lt dd.audio_name bidx hA
  obtain ⟨feats, hf⟩ := gather_ok_of_lt dd.feature bidx hF
  obtain ⟨st, hs⟩ := gather_ok_of_lt tgt bidx hT
  refine ⟨⟨names, transform sc feats, sparse_to_categorical st cn⟩, ?_⟩
  unfold makeBatch
  rw [hn, hf, ht]
  simp only [Bind.bind, Except.bind]
  rw [hs]

theorem makeBatch_target_none (dd : DataDict) (sc : Scalar) (cn : ℕ)
    (bidx : List ℕ) (ht : dd.target = none)
    (hA : ∀ i ∈ bidx, i < dd.audio_name.length)
    (hF : ∀ i ∈ bidx, i < dd.feature.length) :
    makeBatch dd sc cn bidx = Except.error "KeyError: target" := by
  obtain ⟨names, hn⟩ := gather_ok_of_lt dd.audio_name bidx hA
  obtain ⟨feats, hf⟩ := gather_ok_of_lt dd.feature bidx hF
  unfold makeBatch
  rw [hn, hf, ht]
  simp only [Bind.bind, Except.bind]

theorem trainRun_zero (sh : ℕ → List ℕ → List ℕ) (bs : ℕ) (s : TrainState) :
    trainRun sh bs 0 s = ([], s) := rfl

theorem trainRun_succ (sh : ℕ → List ℕ → List ℕ) (bs n : ℕ) (s : TrainState) :
    trainRun sh bs (n + 1) s
      = ((trainStep sh bs s).1 :: (trainRun sh bs n (trainStep sh bs s).2).1,
         (trainRun sh bs n (trainStep sh bs s).2).2) := rfl

theorem trainRun_length (sh : ℕ → List ℕ → List ℕ) (bs : ℕ) :
    ∀ (n : ℕ) (s : TrainState), (trainRun sh bs n s).1.length = n := by
  intro n
  induction n with
  | zero => intro s; rfl
  | succ n ih =>
    intro s
    rw [trainRun_succ, List.length_cons, ih]

theorem trainRun_add (sh : ℕ → List ℕ → List ℕ) (bs : ℕ) :
    ∀ (m n : ℕ) (s : TrainState),
      trainRun sh bs (m + n) s
        = ((trainRun sh bs m s).1
            ++ (trainRun sh bs n (trainRun sh bs m s).2).1,
           (trainRun sh bs n (trainRun sh bs m s).2).2) := by
  intro m
  induction m with
  | zero =>
    intro n s
    rw [Nat.zero_add, trainRun_zero]
    simp
  | succ m ih =>
    intro n s
    have harith : m + 1 + n = (m + n) + 1 := by omega
    rw [harith, trainRun_succ, ih n (trainStep sh bs s).2, trainRun_succ]
    simp

theorem trainRun_fresh (sh : ℕ → List ℕ → List ℕ) (bs : ℕ) (l : List ℕ)
    (r : ℕ) :
    ∀ (j : ℕ), (∀ i, i < j → i * bs < l.length) →
      trainRun sh bs j ⟨l, 0, r⟩
        = ((List.range j).map fun i => (l.drop (i * bs)).take bs,
           ⟨l, j * bs, r⟩) := by
  intro j
  induction j with
  | zero =>
    intro _
    rw [trainRun_zero]
    simp
  | succ j ih =>
    intro hj
    rw [trainRun_add sh bs j 1 ⟨l, 0, r⟩,
      ih fun i hi => hj i (Nat.lt_succ_of_lt hi)]
    have hstep : trainStep sh bs ⟨l, j * bs, r⟩
        = ((l.drop (j * bs)).take bs, ⟨l, j * bs + bs, r⟩) := by
      unfold trainStep
      rw [if_neg]
      simp only [not_le]
      exact hj j (Nat.lt_succ_self j)
    rw [trainRun_succ, trainRun_zero, hstep]
    simp only [List.range_succ, List.map_append, List.map_cons, List.map_nil]
    rw [Nat.succ_mul]

theorem trainRun_wrapped (sh : ℕ → List ℕ → List ℕ) (bs : ℕ) (l : List ℕ)
    (p r : ℕ) (hp : l.length ≤ p) (hnz : (sh r l).length ≠ 0) :
    ∀ (n : ℕ), 1 ≤ n →
      trainRun sh bs n ⟨l, p, r⟩ = trainRun sh bs n ⟨sh r l, 0, r + 1⟩ := by
  intro n hn
  rcases Nat.exists_eq_add_of_le hn with ⟨m, hm⟩
  subst hm
  rw [Nat.add_comm 1 m, trainRun_succ, trainRun_succ]
  have hstep : trainStep sh bs ⟨l, p, r⟩ = trainStep sh bs ⟨sh r l, 0, r + 1⟩ := by
    unfold trainStep
    rw [if_pos hp, if_neg (by simp only [not_le]; omega)]
    rw [List.drop_zero, Nat.zero_add]
  rw [hstep]

theorem trainStep_indexes_perm (sh : ℕ → List ℕ → List ℕ) (bs : ℕ)
    (hsh : ∀ r l, (sh r l).Perm l) (s : TrainState) :
    ((trainStep sh bs s).2.indexes).Perm s.indexes := by
  unfold trainStep
  rcases le_or_lt s.indexes.length s.pointer with h | h
  · rw [if_pos h]
    exact hsh s.rng s.indexes
  · rw [if_neg (by omega)]

theorem trainStep_batch_mem (sh : ℕ → List ℕ → List ℕ) (bs : ℕ)
    (hsh : ∀ r l, (sh r l).Perm l) (s : TrainState) :
    ∀ x ∈ (trainStep sh bs s).1, x ∈ s.indexes := by
  intro x hx
  unfold trainStep at hx
  rcases le_or_lt s.indexes.length s.pointer with h | h
  · rw [if_pos h] at hx
    simp only at hx
    have hsub : ((sh s.rng s.indexes).take bs).Sublist (sh s.rng s.indexes) :=
      List.take_sublist bs _
    exact ((hsh s.rng s.indexes).mem_iff).mp (hsub.subset hx)
  · rw [if_neg (by omega)] at hx
    simp only at hx
    have hsub : ((s.indexes.drop s.pointer).take bs).Sublist s.indexes :=
      (List.take_sublist bs _).trans (List.drop_sublist s.pointer _)
    exact hsub.subset hx

theorem trainRun_indexes_perm (sh : ℕ → List ℕ → List ℕ) (bs : ℕ)
    (hsh : ∀ r l, (sh r l).Perm l) :
    ∀ (n : ℕ) (s : TrainState),
      ((trainRun sh bs n s).2.indexes).Perm s.indexes := by
  intro n
  induction n with
  | zero => intro s; rfl
  | succ n ih =>
    intro s
    rw [trainRun_succ]
    exact (ih (trainStep sh bs s).2).trans (trainStep_indexes_perm sh bs hsh s)

theorem trainRun_batches_mem (sh : ℕ → List ℕ → List ℕ) (bs : ℕ)
    (hsh : ∀ r l, (sh r l).Perm l) :
    ∀ (n : ℕ) (s : TrainState) (b : List ℕ), b ∈ (trainRun sh bs n s).1 →
      ∀ x ∈ b, x ∈ s.indexes := by
  intro n
  induction n with
  | zero =>
    intro s b hb
    rw [trainRun_zero] at hb
    exact absurd hb (List.not_mem_nil b)
  | succ n ih =>
    intro s b hb x hx
    rw [trainRun_succ] at hb
    rcases List.mem_cons.mp hb with hhead | htail
    · subst hhead
      exact trainStep_batch_mem sh bs hsh s x hx
    · have := ih (trainStep sh bs s).2 b htail x hx
      exact ((trainStep_indexes_perm sh bs hsh s).mem_iff).mp this

theorem epochList_perm (sh : ℕ → List ℕ → List ℕ) (idxs : List ℕ)
    (hsh : ∀ r l, (sh r l).Perm l) :
    ∀ (e : ℕ), ((epochList sh idxs e).Perm idxs) := by
  intro e
  induction e with
  | zero => exact hsh 0 idxs
  | succ e ih => exact (hsh (e + 1) (epochList sh idxs e)).trans ih

theorem epochList_length (sh : ℕ → List ℕ → List ℕ) (idxs : List ℕ)
    (hsh : ∀ r l, (sh r l).Perm l) (e : ℕ) :
    (epochList sh idxs e).length = idxs.length :=
  (epochList_perm sh idxs hsh e).length_eq

end DataGenerator

namespace DataGenerator

theorem ceil_div_eq (bs L : ℕ) (hbs : 1 ≤ bs) (hL : 1 ≤ L) :
    (L + bs - 1) / bs = (L - 1) / bs + 1 := by
  have h : L + bs - 1 = (L - 1) + bs := by omega
  rw [h, Nat.add_div_right _ (by omega)]

theorem epochLen_pos (bs : ℕ) (idxs : List ℕ) (hbs : 1 ≤ bs)
    (hL : 1 ≤ idxs.length) : 1 ≤ epochLen idxs bs := by
  unfold epochLen
  rw [ceil_div_eq bs idxs.length hbs hL]
  exact Nat.le_add_left 1 _

theorem le_ceil_mul (bs L : ℕ) (hbs : 1 ≤ bs) (hL : 1 ≤ L) :
    L ≤ ((L + bs - 1) / bs) * bs := by
  rw [ceil_div_eq bs L hbs hL, Nat.add_mul, Nat.one_mul,
    Nat.mul_comm ((L - 1) / bs) bs]
  have hdm := Nat.div_add_mod (L - 1) bs
  have hml : (L - 1) % bs < bs := Nat.mod_lt _ (by omega)
  omega

theorem ceil_pred_mul_lt (bs L : ℕ) (hbs : 1 ≤ bs) (hL : 1 ≤ L) :
    (((L + bs - 1) / bs) - 1) * bs < L := by
  rw [ceil_div_eq bs L hbs hL]
  simp only [Nat.add_sub_cancel]
  have h := Nat.div_mul_le_self (L - 1) bs
  omega

theorem mul_lt_of_lt_ceil (bs L i : ℕ) (hbs : 1 ≤ bs) (hL : 1 ≤ L)
    (hi : i < (L + bs - 1) / bs) : i * bs < L := by
  have h1 : i ≤ (L + bs - 1) / bs - 1 := by omega
  have h2 : i * bs ≤ ((L + bs - 1) / bs - 1) * bs := Nat.mul_le_mul_right bs h1
  exact lt_of_le_of_lt h2 (ceil_pred_mul_lt bs L hbs hL)

theorem range_chunks_flatten (bs : ℕ) (l : List ℕ) (hbs : 1 ≤ bs) :
    ∀ (k p : ℕ), l.length ≤ p + k * bs →
      ((List.range k).map fun i => (l.drop (p + i * bs)).take bs).flatten
        = l.drop p := by
  intro k
  induction k with
  | zero =>
    intro p h
    simp only [Nat.zero_mul, Nat.add_zero] at h
    rw [List.range_zero, List.map_nil, List.flatten_nil,
      List.drop_eq_nil_of_le h]
  | succ k ih =>
    intro p h
    rw [List.range_succ_eq_map, List.map_cons, List.flatten_cons,
      List.map_map]
    have hfun : ((fun i => (l.drop (p + i * bs)).take bs) ∘ Nat.succ)
        = fun i => (l.drop ((p + bs) + i * bs)).take bs := by
      funext i
      simp only [Function.comp_apply]
      have : p + Nat.succ i * bs = (p + bs) + i * bs := by
        rw [Nat.succ_mul]
        omega
      rw [this]
    rw [hfun, ih (p + bs) (by rw [Nat.succ_mul] at h; omega)]
    simp only [Nat.zero_mul, Nat.add_zero]
    have hdd : l.drop (p + bs) = (l.drop p).drop bs := by
      rw [List.drop_drop]
    rw [hdd, List.take_append_drop]

theorem trainRun_epoch_start (sh : ℕ → List ℕ → List ℕ) (bs : ℕ)
    (idxs : List ℕ) (hsh : ∀ r l, (sh r l).Perm l) (hne : idxs ≠ [])
    (hbs : 1 ≤ bs) :
    ∀ (e : ℕ), ∀ (n : ℕ), 1 ≤ n →
      trainRun sh bs n
          ((trainRun sh bs (e * epochLen idxs bs) (initTrain sh idxs)).2)
        = trainRun sh bs n ⟨epochList sh idxs e, 0, e + 1⟩ := by
  have hL : 1 ≤ idxs.length := by
    rcases idxs with _ | ⟨x, xs⟩
    · exact absurd rfl hne
    · simp
  have hk : 1 ≤ epochLen idxs bs := epochLen_pos bs idxs hbs hL
  intro e
  induction e with
  | zero =>
    intro n _
    rw [Nat.zero_mul, trainRun_zero]
    rfl
  | succ e ih =>
    intro n hn
    have harith : (e + 1) * epochLen idxs bs
        = e * epochLen idxs bs + epochLen idxs bs := by
      rw [Nat.succ_mul]
    rw [harith, trainRun_add]
    have hrun := ih (epochLen idxs bs) hk
    rw [hrun]
    have hlen : (epochList sh idxs e).length = idxs.length :=
      epochList_length sh idxs hsh e
    have hfresh := trainRun_fresh sh bs (epochList sh idxs e) (e + 1)
      (epochLen idxs bs)
      (fun i hi => by
        rw [hlen]
        exact mul_lt_of_lt_ceil bs idxs.length i hbs hL hi)
    rw [hfresh]
    have hwrap := trainRun_wrapped sh bs (epochList sh idxs e)
      (epochLen idxs bs * bs) (e + 1)
      (by
        rw [hlen]
        have := le_ceil_mul bs idxs.length hbs hL
        exact this)
      (by
        have : (sh (e + 1) (epochList sh idxs e)).length = idxs.length := by
          rw [(hsh (e + 1) (epochList sh idxs e)).length_eq, hlen]
        omega)
      n hn
    exact hwrap

end DataGenerator

namespace DataGenerator

/-- C1: over each full pass (epoch) `e` of `generate_train`, the
concatenation of the yielded row-index slices is a permutation of the train
index set — no duplicates and no omissions — where each epoch's order comes
from reshuffling the previous list in place at wraparound. -/
theorem generate_train_epoch_perm (sh : ℕ → List ℕ → List ℕ)
    (idxs : List ℕ) (bs e : ℕ) (hsh : ∀ r l, (sh r l).Perm l)
    (hne : idxs ≠ []) (hbs : 1 ≤ bs) :
    (((trainRun sh bs ((e + 1) * epochLen idxs bs)
        (initTrain sh idxs)).1.drop (e * epochLen idxs bs)).flatten).Perm
      idxs := by
  have hL : 1 ≤ idxs.length := by
    rcases idxs with _ | ⟨x, xs⟩
    · exact absurd rfl hne
    · simp
  have hk : 1 ≤ epochLen idxs bs := epochLen_pos bs idxs hbs hL
  have harith : (e + 1) * epochLen idxs bs
      = e * epochLen idxs bs + epochLen idxs bs := by
    rw [Nat.succ_mul]
  rw [harith]
  simp only [trainRun_add]
  have hAlen : (trainRun sh bs (e * epochLen idxs bs)
      (initTrain sh idxs)).1.length = e * epochLen idxs bs :=
    trainRun_length sh bs _ _
  have hdropA : ∀ (A B : List (List ℕ)), A.length = e * epochLen idxs bs →
      (A ++ B).drop (e * epochLen idxs bs) = B := by
    intro A B hA
    rw [← hA, List.drop_left]
  rw [hdropA _ _ hAlen]
  have hst := trainRun_epoch_start sh bs idxs hsh hne hbs e
    (epochLen idxs bs) hk
  rw [hst]
  have hlen : (epochList sh idxs e).length = idxs.length :=
    epochList_length sh idxs hsh e
  have hfresh := trainRun_fresh sh bs (epochList sh idxs e) (e + 1)
    (epochLen idxs bs)
    (fun i hi => by
      rw [hlen]
      exact mul_lt_of_lt_ceil bs idxs.length i hbs hL hi)
  simp only [hfresh]
  have hzero : ((List.range (epochLen idxs bs)).map fun i =>
        ((epochList sh idxs e).drop (0 + i * bs)).take bs)
      = (List.range (epochLen idxs bs)).map fun i =>
        ((epochList sh idxs e).drop (i * bs)).take bs := by
    simp only [Nat.zero_add]
  rw [← hzero, range_chunks_flatten bs (epochList sh idxs e) hbs
    (epochLen idxs bs) 0
    (by
      rw [hlen]
      have h1 := le_ceil_mul bs idxs.length hbs hL
      unfold epochLen
      omega),
    List.drop_zero]
  exact epochList_perm sh idxs hsh e

/-- Witness for C1: the second epoch (`e = 1`) of a stream over `[0,1,2]`
with batch size 2 and the identity shuffle yields `[0,1,2]` up to
permutation. -/
theorem generate_train_epoch_perm_witness :
    ((((trainRun (fun _ l => l) 2
        ((1 + 1) * epochLen [0, 1, 2] 2)
        (initTrain (fun _ l => l) [0, 1, 2])).1.drop
          (1 * epochLen [0, 1, 2] 2)).flatten).Perm [0, 1, 2]) :=
  generate_train_epoch_perm (fun _ l => l) [0, 1, 2] 2 1
    (fun _ l => List.Perm.refl l) (by decide) (by decide)

end DataGenerator

namespace DataGenerator

theorem nthTrainIndexes_epoch (sh : ℕ → List ℕ → List ℕ) (idxs : List ℕ)
    (bs e j : ℕ) (hsh : ∀ r l, (sh r l).Perm l) (hne : idxs ≠ [])
    (hbs : 1 ≤ bs) (hj : j < epochLen idxs bs) :
    nthTrainIndexes sh bs idxs (e * epochLen idxs bs + j)
      = ((epochList sh idxs e).drop (j * bs)).take bs := by
  have hL : 1 ≤ idxs.length := by
    rcases idxs with _ | ⟨x, xs⟩
    · exact absurd rfl hne
    · simp
  have hk : 1 ≤ epochLen idxs bs := epochLen_pos bs idxs hbs hL
  unfold nthTrainIndexes
  have harith : e * epochLen idxs bs + j + 1
      = e * epochLen idxs bs + (j + 1) := by omega
  rw [harith]
  rw [trainRun_add sh bs (e * epochLen idxs bs) (j + 1) (initTrain sh idxs)]
  dsimp only
  have hAlen : (trainRun sh bs (e * epochLen idxs bs)
      (initTrain sh idxs)).1.length = e * epochLen idxs bs :=
    trainRun_length sh bs _ _
  have hgetD : ∀ (A B : List (List ℕ)),
      A.length = e * epochLen idxs bs →
      (A ++ B).getD (e * epochLen idxs bs + j) [] = B.getD j [] := by
    intro A B hA
    rw [List.getD_append_right A B [] _ (by omega)]
    rw [hA]
    simp
  rw [hgetD _ _ hAlen]
  have hst := trainRun_epoch_start sh bs idxs hsh hne hbs e (j + 1)
    (by omega)
  rw [hst]
  have hlen : (epochList sh idxs e).length = idxs.length :=
    epochList_length sh idxs hsh e
  have hfresh := trainRun_fresh sh bs (epochList sh idxs e) (e + 1) (j + 1)
    (fun i hi => by
      rw [hlen]
      exact mul_lt_of_lt_ceil bs idxs.length i hbs hL (by exact lt_of_lt_of_le hi hj))
  simp only [hfresh]
  have hjlen : j < ((List.range (j + 1)).map fun i =>
      ((epochList sh idxs e).drop (i * bs)).take bs).length := by
    simp
  rw [List.getD_eq_getElem _ _ hjlen, List.getElem_map, List.getElem_range]

/-- C7: within every epoch `e` of `generate_train`, the `j`-th batch has
`min batch_size (L - j·batch_size)` rows, which is exactly `batch_size`
except when `j` is the last slot of the epoch and `batch_size` does not
divide the index-set length `L` — so exactly one short batch occurs per
epoch boundary, and only when `L` is not a multiple of `batch_size`. -/
theorem generate_train_batch_sizes (sh : ℕ → List ℕ → List ℕ)
    (idxs : List ℕ) (bs e j : ℕ) (hsh : ∀ r l, (sh r l).Perm l)
    (hne : idxs ≠ []) (hbs : 1 ≤ bs) (hj : j < epochLen idxs bs) :
    (nthTrainIndexes sh bs idxs (e * epochLen idxs bs + j)).length
      = min bs (idxs.length - j * bs)
    ∧ (min bs (idxs.length - j * bs) < bs
        ↔ (j = epochLen idxs bs - 1 ∧ ¬ bs ∣ idxs.length)) := by
  have hL : 1 ≤ idxs.length := by
    rcases idxs with _ | ⟨x, xs⟩
    · exact absurd rfl hne
    · simp
  have hk : 1 ≤ epochLen idxs bs := epochLen_pos bs idxs hbs hL
  have hjb : j * bs < idxs.length :=
    mul_lt_of_lt_ceil bs idxs.length j hbs hL hj
  constructor
  · rw [nthTrainIndexes_epoch sh idxs bs e j hsh hne hbs hj,
      List.length_take, List.length_drop,
      epochList_length sh idxs hsh e]
  · constructor
    · intro hlt
      have hlt2 : idxs.length - j * bs < bs := by omega
      have hsucc : (j + 1) * bs = j * bs + bs := by rw [Nat.succ_mul]
      have hLlt : idxs.length < (j + 1) * bs := by omega
      constructor
      · by_contra hne2
        have hj1 : j + 1 < epochLen idxs bs := by omega
        have hcontra := mul_lt_of_lt_ceil bs idxs.length (j + 1) hbs hL hj1
        omega
      · rintro ⟨m, hm⟩
        have h1 : j * bs < bs * m := by rw [← hm]; exact hjb
        have h2 : bs * m < (j + 1) * bs := by rw [← hm]; exact hLlt
        rw [Nat.mul_comm j bs] at h1
        rw [Nat.mul_comm (j + 1) bs] at h2
        have h3 : j < m := Nat.lt_of_mul_lt_mul_left h1
        have h4 : m < j + 1 := Nat.lt_of_mul_lt_mul_left h2
        omega
    · rintro ⟨hjeq, hndvd⟩
      have hle := le_ceil_mul bs idxs.length hbs hL
      have hne3 : idxs.length ≠ epochLen idxs bs * bs := by
        intro hc
        exact hndvd ⟨epochLen idxs bs, by rw [hc, Nat.mul_comm]⟩
      have hklt : idxs.length < epochLen idxs bs * bs := by
        unfold epochLen at hne3 ⊢
        omega
      have hk1 : epochLen idxs bs * bs = (epochLen idxs bs - 1) * bs + bs := by
        rcases Nat.exists_eq_add_of_le hk with ⟨t, ht⟩
        have ht2 : epochLen idxs bs = t + 1 := by omega
        rw [ht2]
        simp [Nat.succ_mul]
      subst hjeq
      omega

/-- Witness for C7: with index set `[0,1,2]` and batch size 2 the epoch has
2 batches; batch `j = 1` of epoch 0 is the short one (1 row), and indeed
`min 2 (3 - 2) = 1 < 2` and 2 does not divide 3. -/
theorem generate_train_batch_sizes_witness :
    (nthTrainIndexes (fun _ l => l) 2 [0, 1, 2]
        (0 * epochLen [0, 1, 2] 2 + 1)).length
      = min 2 ([0, 1, 2].length - 1 * 2)
    ∧ (min 2 ([0, 1, 2].length - 1 * 2) < 2
        ↔ (1 = epochLen [0, 1, 2] 2 - 1 ∧ ¬ 2 ∣ [0, 1, 2].length)) :=
  generate_train_batch_sizes (fun _ l => l) [0, 1, 2] 2 0 1
    (fun _ l => List.Perm.refl l) (by decide) (by decide) (by decide)

end DataGenerator

namespace DataGenerator

theorem nthTrainIndexes_mem (sh : ℕ → List ℕ → List ℕ) (bs : ℕ)
    (idxs : List ℕ) (hsh : ∀ r l, (sh r l).Perm l) (n : ℕ) :
    ∀ x ∈ nthTrainIndexes sh bs idxs n, x ∈ idxs := by
  intro x hx
  unfold nthTrainIndexes at hx
  have hlen : (trainRun sh bs (n + 1) (initTrain sh idxs)).1.length = n + 1 :=
    trainRun_length sh bs _ _
  have hn : n < (trainRun sh bs (n + 1) (initTrain sh idxs)).1.length := by
    omega
  rw [List.getD_eq_getElem _ _ hn] at hx
  have hmem : (trainRun sh bs (n + 1) (initTrain sh idxs)).1.get ⟨n, hn⟩
      ∈ (trainRun sh bs (n + 1) (initTrain sh idxs)).1 :=
    List.get_mem _ n hn
  have hx2 : x ∈ (trainRun sh bs (n + 1) (initTrain sh idxs)).1.get ⟨n, hn⟩ := by
    simpa [List.get_eq_getElem] using hx
  have := trainRun_batches_mem sh bs hsh (n + 1) (initTrain sh idxs)
    _ hmem x hx2
  exact ((hsh 0 idxs).mem_iff).mp this

/-- C2: the training stream is total — for every `n`, the `n`-th batch
request succeeds (no error and no termination), whenever the feeder was
built consistently (targets present, indices in range). -/
theorem generate_train_infinite (sh : ℕ → List ℕ → List ℕ) (dd : DataDict)
    (sc : Scalar) (classes_num batch_size : ℕ) (idxs tgt : List ℕ)
    (hsh : ∀ r l, (sh r l).Perm l) (hne : idxs ≠ []) (hbs : 1 ≤ batch_size)
    (ht : dd.target = some tgt)
    (hA : ∀ i ∈ idxs, i < dd.audio_name.length)
    (hF : ∀ i ∈ idxs, i < dd.feature.length)
    (hT : ∀ i ∈ idxs, i < tgt.length) :
    ∀ n, ∃ b, nthTrainBatch sh dd sc classes_num batch_size idxs n
      = Except.ok b := by
  intro n
  unfold nthTrainBatch
  exact makeBatch_ok_of_target dd sc classes_num _ tgt ht
    (fun i hi => hA i (nthTrainIndexes_mem sh batch_size idxs hsh n i hi))
    (fun i hi => hF i (nthTrainIndexes_mem sh batch_size idxs hsh n i hi))
    (fun i hi => hT i (nthTrainIndexes_mem sh batch_size idxs hsh n i hi))

/-- Witness for C2: the 10,000th batch request (index 9999) on a 5-element
index set with batch size 2 succeeds. -/
theorem generate_train_infinite_witness :
    ∃ b, nthTrainBatch (fun _ l => l)
        ⟨["a", "b", "c", "d", "e"], [[1], [2], [3], [4], [5]],
          some [0, 1, 0, 1, 0], none⟩
        ⟨[0], [1]⟩ 2 2 [0, 1, 2, 3, 4] 9999 = Except.ok b :=
  generate_train_infinite (fun _ l => l)
    ⟨["a", "b", "c", "d", "e"], [[1], [2], [3], [4], [5]],
      some [0, 1, 0, 1, 0], none⟩
    ⟨[0], [1]⟩ 2 2 [0, 1, 2, 3, 4] [0, 1, 0, 1, 0]
    (fun _ l => List.Perm.refl l) (by decide) (by decide) rfl
    (by decide) (by decide) (by decide) 9999

/-- C10: when the feature store has no `scene_label` column (`target`
absent), the first batch request of the training stream and of the
validation stream (mode `"train"`) both fail with the missing-key error
instead of yielding a label-free batch. -/
theorem generate_missing_target_key_error (sh : ℕ → List ℕ → List ℕ)
    (dd : DataDict) (sc : Scalar) (classes_num batch_size : ℕ)
    (idxs vidx : List ℕ) (sources : List String) (maxIt : Option ℕ)
    (hsh : ∀ r l, (sh r l).Perm l) (ht : dd.target = none)
    (hA : ∀ i ∈ idxs, i < dd.audio_name.length)
    (hF : ∀ i ∈ idxs, i < dd.feature.length)
    (hne : idxs ≠ []) (hmi : maxIt ≠ some 0) :
    nthTrainBatch sh dd sc classes_num batch_size idxs 0
        = Except.error "KeyError: target"
    ∧ generate_validate dd sc classes_num batch_size idxs vidx "train"
        sources maxIt = Except.error "KeyError: target" := by
  constructor
  · unfold nthTrainBatch
    exact makeBatch_target_none dd sc classes_num _ ht
      (fun i hi => hA i (nthTrainIndexes_mem sh batch_size idxs hsh 0 i hi))
      (fun i hi => hF i (nthTrainIndexes_mem sh batch_size idxs hsh 0 i hi))
  · rcases idxs with _ | ⟨x, xs⟩
    · exact absurd rfl hne
    · unfold generate_validate generate_validate_chunks
      rw [if_pos rfl]
      rw [validateLoop_cons, if_neg hmi]
      have hsub : ∀ i ∈ (x :: xs).take batch_size, i ∈ x :: xs :=
        fun i hi => (List.take_sublist batch_size (x :: xs)).subset hi
      have hmb : makeBatch dd sc classes_num ((x :: xs).take batch_size)
          = Except.error "KeyError: target" :=
        makeBatch_target_none dd sc classes_num _ ht
          (fun i hi => hA i (hsub i hi))
          (fun i hi => hF i (hsub i hi))
      simp only [Bind.bind, Except.bind, List.mapM_cons, hmb]

/-- Witness for C10 on a one-row store without labels. -/
theorem generate_missing_target_key_error_witness :
    nthTrainBatch (fun _ l => l) ⟨["a"], [[1]], none, none⟩ ⟨[0], [1]⟩ 1 1
        [0] 0 = Except.error "KeyError: target"
    ∧ generate_validate ⟨["a"], [[1]], none, none⟩ ⟨[0], [1]⟩ 1 1 [0] []
        "train" [] none = Except.error "KeyError: target" :=
  generate_missing_target_key_error (fun _ l => l)
    ⟨["a"], [[1]], none, none⟩ ⟨[0], [1]⟩ 1 1 [0] [] [] none
    (fun _ l => List.Perm.refl l) rfl (by decide) (by decide)
    (by decide) (by decide)

end DataGenerator
